import Mathlib

/-!
Verification of the Brainfuck interpreter in `src/bin/bf.py`.

The engine (`brainfuck`) works in two phases:
1. Loop Resolver: a single left-to-right scan with a stack of pending `[`
   positions, building a bidirectional jump map (`loop_map`) or raising a
   SyntaxError on an unmatched bracket.
2. Tape Machine: a while-loop over the instruction sequence, mutating a
   30,000-cell tape of integers with cell modulus `2^8 - 1 = 255`, a data
   pointer with circular wraparound modulo the tape length, a static-input
   read cursor, and an output accumulator.

The embedding below fixes `use_dynamic_io = 0` (Static mode), the mode every
claim under verification concerns.  Python's `%` on `int` with a positive
modulus agrees with Lean's `Int.emod` (`%` on `Int`), which is used for every
wraparound.  The CLI collaborator (lines 184-190 of the source) passes the
Input Buffer to `brainfuck` as a `list[int]` of code points, so static input
is modelled as `List Int`; Python's `ord` applied to an element of that list
(an `int`, not a one-character string) raises a `TypeError`, modelled by
`pyOrdInt`.
-/

namespace BF

/-- Engine errors: the two `SyntaxError`s raised by the Loop Resolver, and the
`TypeError` raised by `ord()` when handed an `int` from the static Input
Buffer. -/
inductive BfError where
  | unmatchedClose (pos : Nat)
  | unmatchedOpen (pos : Nat)
  | typeError
deriving DecidableEq, Repr

/-- `TAPE_SZ = 30_000` (source line 85). -/
def TAPE_SZ : Nat := 30000

/-- `CELL_SZ = 2**8 - 1` (source line 84): the cell modulus is 255, not 256. -/
def CELL_SZ : Int := 2 ^ 8 - 1

/-- The Loop Resolver scan (source lines 90-101): walk the code with the
current index `i`, a stack `stk` of pending `[` positions (top = head, the
Python list's last element), and the association list `m` modelling the
`loop_map` dict (most recent binding first, so `List.lookup` has dict lookup
semantics).  On `]` with an empty stack raise `unmatchedClose i`; on `]`
otherwise pop `start` and record both `start ↦ i` and `i ↦ start`.  After the
scan, a non-empty stack raises `unmatchedOpen` at `loop_stk[-1]`, the top of
the stack. -/
def loopScanAux : List Char → Nat → List Nat → List (Nat × Nat) →
    Except BfError (List (Nat × Nat))
  | [], _, stk, m =>
    match stk with
    | [] => .ok m
    | top :: _ => .error (.unmatchedOpen top)
  | c :: rest, i, stk, m =>
    if c = '[' then
      loopScanAux rest (i + 1) (i :: stk) m
    else if c = ']' then
      match stk with
      | [] => .error (.unmatchedClose i)
      | start :: stk' => loopScanAux rest (i + 1) stk' ((i, start) :: (start, i) :: m)
    else
      loopScanAux rest (i + 1) stk m

/-- The Loop Resolver: precompute loop positions for the whole code. -/
def loopResolve (code : List Char) : Except BfError (List (Nat × Nat)) :=
  loopScanAux code 0 [] []

/-- Interpreter state of the Tape Machine (source lines 86, 104-105):
`tape` is the 30,000-cell list, `p` the data pointer, `i` the instruction
pointer, `inp_i` the static-input read cursor, `output` the accumulated
output character codes. -/
structure BfState where
  tape : List Int
  p : Int
  i : Nat
  inp_i : Nat
  output : List Int
deriving Repr

/-- Initial state: zero tape, all pointers at 0, empty output. -/
def initState : BfState :=
  { tape := List.replicate TAPE_SZ 0, p := 0, i := 0, inp_i := 0, output := [] }

/-- The current cell `tape[p]` (the data pointer is kept in `[0, TAPE_SZ)`
by the emod wraparound, so `toNat` indexing is exact). -/
def cellAt (s : BfState) : Int := s.tape.getD s.p.toNat 0

/-- `loop_map[i]`: dict lookup.  The resolver guarantees an entry at every
bracket position of resolved code (a miss would be a Python `KeyError`; the
default is irrelevant there). -/
def lmLookup (lm : List (Nat × Nat)) (i : Nat) : Nat := (lm.lookup i).getD 0

/-- Python `ord` applied to an element of the CLI-supplied `list[int]` Input
Buffer (source line 134 with the call at line 190): `ord` expects a
one-character string, so applying it to an `int` raises `TypeError`. -/
def pyOrdInt (_ : Int) : Except BfError Int := .error .typeError

/-- One iteration of the interpretation while-loop (source lines 107-142) in
Static mode: dispatch on `code[i]`, then the uniform `i += 1` advance (which
also follows a loop jump).  Only the static `,` branch can fail, via
`pyOrdInt`; the exception aborts before `inp_i += 1` runs. -/
def bfStep (code : List Char) (lm : List (Nat × Nat)) (inp : List Int)
    (s : BfState) : Except BfError BfState :=
  let cmd := code.getD s.i ' '
  if cmd = '>' then
    .ok { s with p := (s.p + 1) % (TAPE_SZ : Int), i := s.i + 1 }
  else if cmd = '<' then
    .ok { s with p := (s.p - 1) % (TAPE_SZ : Int), i := s.i + 1 }
  else if cmd = '+' then
    .ok { s with tape := s.tape.set s.p.toNat ((cellAt s + 1) % CELL_SZ), i := s.i + 1 }
  else if cmd = '-' then
    .ok { s with tape := s.tape.set s.p.toNat ((cellAt s - 1) % CELL_SZ), i := s.i + 1 }
  else if cmd = '.' then
    .ok { s with output := s.output ++ [cellAt s], i := s.i + 1 }
  else if cmd = ',' then
    if s.inp_i < inp.length then
      match pyOrdInt (inp.getD s.inp_i 0) with
      | .error e => .error e
      | .ok v =>
        .ok { s with tape := s.tape.set s.p.toNat v, inp_i := s.inp_i + 1, i := s.i + 1 }
    else
      .ok { s with tape := s.tape.set s.p.toNat 0, inp_i := s.inp_i + 1, i := s.i + 1 }
  else if cmd = '[' then
    .ok { s with i := (if cellAt s = 0 then lmLookup lm s.i else s.i) + 1 }
  else if cmd = ']' then
    .ok { s with i := (if cellAt s ≠ 0 then lmLookup lm s.i else s.i) + 1 }
  else
    .ok { s with i := s.i + 1 }

/-- Run the while-loop for at most `fuel` iterations: returns the state
reached after `fuel` steps, or earlier if the loop guard `i < len(code)`
fails, or an error if a step raises. -/
def bfExec (code : List Char) (lm : List (Nat × Nat)) (inp : List Int) :
    Nat → BfState → Except BfError BfState
  | 0, s => .ok s
  | fuel + 1, s =>
    if s.i < code.length then
      match bfStep code lm inp s with
      | .error e => .error e
      | .ok s' => bfExec code lm inp fuel s'
    else .ok s

/-- The engine entry point (source lines 71-143) in Static mode: resolve
loops, then interpret; on normal termination return `(output, tape)`.
`none` means the fuel ran out before the loop guard failed (the source has
no step bound; a diverging program runs forever). -/
def brainfuck (code : List Char) (inp : List Int) (fuel : Nat) :
    Option (Except BfError (List Int × List Int)) :=
  match loopResolve code with
  | .error e => some (.error e)
  | .ok lm =>
    match bfExec code lm inp fuel initState with
    | .error e => some (.error e)
    | .ok s => if s.i < code.length then none else some (.ok (s.output, s.tape))

/-- Reference scan of the pending-`[` stack only (analysis device for stating
claims about the resolver): returns the final stack, or `none` if an
unmatched `]` aborts the scan. -/
def scanStk : List Char → Nat → List Nat → Option (List Nat)
  | [], _, stk => some stk
  | c :: rest, i, stk =>
    if c = '[' then
      scanStk rest (i + 1) (i :: stk)
    else if c = ']' then
      match stk with
      | [] => none
      | _ :: stk' => scanStk rest (i + 1) stk'
    else
      scanStk rest (i + 1) stk

/-- A sequence has balanced brackets iff the stack scan completes with an
empty stack. -/
def Balanced (code : List Char) : Prop := scanStk code 0 [] = some []

instance (code : List Char) : Decidable (Balanced code) := by
  unfold Balanced; infer_instance

/-- Position `x` holds a bracket in `code`. -/
def bracketAt (code : List Char) (x : Nat) : Prop :=
  code[x]? = some '[' ∨ code[x]? = some ']'

/-- The program `[-]` of claim C4. -/
def code4 : List Char := ['[', '-', ']']

/-- The jump map the resolver produces for `[-]`. -/
def lm4 : List (Nat × Nat) := [(2, 0), (0, 2)]

/-- Start state for claim C4: current cell (cell 0) preloaded with `v`. -/
def S4 (v : Nat) : BfState :=
  { initState with tape := initState.tape.set 0 (v : Int) }

/-- State of the `[-]` run at the top of the loop body (about to execute the
`-` at position 1) with current cell `w`. -/
def T4 (w : Nat) : BfState :=
  { initState with tape := initState.tape.set 0 (w : Int), i := 1 }

/-- Final state of every `[-]` run: cell cleared, instruction pointer at the
sequence length. -/
def H4 : BfState :=
  { initState with tape := initState.tape.set 0 0, i := 3 }

/-- Programs built only from `+` and `-` (claim C5). -/
def onlyPM (code : List Char) : Prop := ∀ c ∈ code, c = '+' ∨ c = '-'

instance (code : List Char) : Decidable (onlyPM code) := by
  unfold onlyPM; infer_instance

/-- The execution invariant: the data pointer stays in `[0, TAPE_SZ)`, the
tape keeps its 30,000 cells, and every cell value stays in `[0, CELL_SZ)`
(so no cell ever holds 255). -/
structure GoodState (s : BfState) : Prop where
  p_nonneg : 0 ≤ s.p
  p_lt : s.p < (TAPE_SZ : Int)
  len : s.tape.length = TAPE_SZ
  cells : ∀ x ∈ s.tape, 0 ≤ x ∧ x < CELL_SZ

/-- A state whose current cell holds 254 (for the wraparound claims). -/
def st254 : BfState := { initState with tape := initState.tape.set 0 254 }

/-- The keys of the association-list jump map (the dict's key set, with
multiplicity). -/
def mKeys (m : List (Nat × Nat)) : List Nat := m.map Prod.fst

/-- Invariant of the Loop Resolver scan at index `i`, pending stack `stk`,
accumulated map `m`: stack entries are earlier positions, keys are earlier
bracket positions not still pending, keys are distinct, every earlier
non-pending bracket position is a key, and the map is symmetric with
dict-lookup returning each pair. -/
structure ScanInv (code : List Char) (i : Nat) (stk : List Nat)
    (m : List (Nat × Nat)) : Prop where
  stk_lt : ∀ p ∈ stk, p < i
  stk_nodup : stk.Nodup
  keys_lt : ∀ x ∈ mKeys m, x < i
  disj : ∀ p ∈ stk, p ∉ mKeys m
  keys_nodup : (mKeys m).Nodup
  cover : ∀ x, x < i → bracketAt code x → x ∉ stk → x ∈ mKeys m
  pair_symm : ∀ a b, (a, b) ∈ m → (b, a) ∈ m
  lookup_ok : ∀ a b, (a, b) ∈ m → m.lookup a = some b

end BF

deriving instance DecidableEq for Except

namespace BF

/-- Running the resolver scan over `pre ++ suf` is running it over `suf`
from the stack state the reference stack scan reaches after `pre` (for some
accumulated map).  Relates `loopScanAux` to the analysis-only `scanStk`. -/
theorem loopScanAux_append (suf : List Char) :
    ∀ (pre : List Char) (i : Nat) (stk stk' : List Nat) (m : List (Nat × Nat)),
    scanStk pre i stk = some stk' →
    ∃ m', loopScanAux (pre ++ suf) i stk m = loopScanAux suf (i + pre.length) stk' m' := by
  intro pre
  induction pre with
  | nil =>
    intro i stk stk' m h
    simp only [scanStk, Option.some.injEq] at h
    subst h
    exact ⟨m, by simp⟩
  | cons c rest ih =>
    intro i stk stk' m h
    simp only [scanStk] at h
    rw [List.cons_append]
    by_cases h1 : c = '['
    · rw [if_pos h1] at h
      obtain ⟨m', hm'⟩ := ih (i + 1) (i :: stk) stk' m h
      refine ⟨m', ?_⟩
      simp only [loopScanAux, if_pos h1]
      rw [hm', List.length_cons]
      congr 1
      omega
    · rw [if_neg h1] at h
      by_cases h2 : c = ']'
      · rw [if_pos h2] at h
        cases stk with
        | nil => simp at h
        | cons start stk2 =>
          obtain ⟨m', hm'⟩ := ih (i + 1) stk2 stk' ((i, start) :: (start, i) :: m) h
          refine ⟨m', ?_⟩
          simp only [loopScanAux, if_neg h1, if_pos h2]
          rw [hm', List.length_cons]
          congr 1
          omega
      · rw [if_neg h2] at h
        obtain ⟨m', hm'⟩ := ih (i + 1) stk stk' m h
        refine ⟨m', ?_⟩
        simp only [loopScanAux, if_neg h1, if_neg h2]
        rw [hm', List.length_cons]
        congr 1
        omega

/-- C1: the end-to-end `,.` echo with the integer Input Buffer `[65]` does
not succeed: at the first `,` the code applies `ord` to the buffer element
`65`, an `int`, raising `TypeError`, so the run aborts with an error and
produces no output. -/
theorem c1_run_fails :
    brainfuck [',', '.'] [65] 10 = some (.error .typeError) := rfl

/-- C8: the exhausted-read half of the claim holds (a `,` with the read
cursor at or past the end of the Input Buffer writes 0 and advances the
cursor), but a `,` executed before exhaustion raises `TypeError` from
`ord(int)` before `inp_i += 1` runs, so the cursor is not advanced on every
`,`: here the very first `,` with buffer `[65]` errors. -/
theorem c8_comma_before_exhaustion_fails :
    bfStep [','] [] [65] initState = .error .typeError := rfl

/-- C9: pointer movement is circular on the 30,000-cell tape: executing `<`
with the data pointer at 0 moves it to 29,999, and executing `>` with the
data pointer at 29,999 moves it to 0 (the `i + 1` advance applies as
always). -/
theorem c9_pointer_wraparound : ∀ (code : List Char) (lm : List (Nat × Nat))
    (inp : List Int) (s : BfState),
    (code.getD s.i ' ' = '<' → s.p = 0 →
      bfStep code lm inp s = .ok { s with p := 29999, i := s.i + 1 }) ∧
    (code.getD s.i ' ' = '>' → s.p = 29999 →
      bfStep code lm inp s = .ok { s with p := 0, i := s.i + 1 }) := by
  intro code lm inp s
  constructor
  · intro hc hp
    simp only [bfStep, hc, hp]
    norm_num [TAPE_SZ]
    decide
  · intro hc hp
    simp only [bfStep, hc, hp]
    norm_num [TAPE_SZ]

/-- Witness for C9 at a concrete input: `<` at pointer 0 in the program
`"<"`. -/
theorem c9_pointer_wraparound_witness :
    (['<'].getD 0 ' ' = '<') ∧ initState.p = 0 ∧
    bfStep ['<'] [] [] initState = .ok { initState with p := 29999, i := 1 } :=
  ⟨rfl, rfl, (c9_pointer_wraparound ['<'] [] [] initState).1 rfl rfl⟩

/-- C6: if the Loop Resolver fails, the engine returns that syntax error
directly: the validation pass completes before the interpretation loop
starts, so no output string or tape is produced and no instruction has run —
the result does not even depend on the input buffer or the fuel. -/
theorem c6_no_partial_execution (code : List Char) (e : BfError)
    (h : loopResolve code = .error e) :
    ∀ (inp : List Int) (fuel : Nat), brainfuck code inp fuel = some (.error e) := by
  intro inp fuel
  simp only [brainfuck, h]

/-- Witness for C6 at the concrete program `"]"`. -/
theorem c6_no_partial_execution_witness :
    loopResolve [']'] = .error (.unmatchedClose 0) ∧
    brainfuck [']'] [7] 5 = some (.error (.unmatchedClose 0)) :=
  ⟨rfl, c6_no_partial_execution [']'] (.unmatchedClose 0) rfl [7] 5⟩

/-- C7: a `]` scanned while the stack of pending open-loop positions is
empty makes the resolver fail immediately, reporting that `]`'s position:
if the stack scan of the first `j` instructions ends with an empty stack and
position `j` holds `]`, resolution fails with `unmatchedClose j`. -/
theorem c7_unmatched_close (code : List Char) (j : Nat)
    (hpre : scanStk (code.take j) 0 [] = some [])
    (hj : code[j]? = some ']') :
    loopResolve code = .error (.unmatchedClose j) := by
  obtain ⟨hjlt, hcj⟩ := List.getElem?_eq_some_iff.mp hj
  have hsplit : code = code.take j ++ ']' :: code.drop (j + 1) := by
    conv_lhs => rw [← List.take_append_drop j code]
    rw [List.drop_eq_getElem_cons hjlt, hcj]
  obtain ⟨m', hm'⟩ := loopScanAux_append (']' :: code.drop (j + 1)) (code.take j) 0 [] [] [] hpre
  rw [loopResolve]
  conv_lhs => rw [hsplit]
  rw [hm', List.length_take, Nat.min_eq_left (Nat.le_of_lt hjlt)]
  simp [loopScanAux]

/-- Witness for C7 at the concrete program `"+]"`. -/
theorem c7_unmatched_close_witness :
    scanStk (['+', ']'].take 1) 0 [] = some [] ∧ ['+', ']'][1]? = some ']' ∧
    loopResolve ['+', ']'] = .error (.unmatchedClose 1) :=
  ⟨rfl, rfl, c7_unmatched_close ['+', ']'] 1 rfl rfl⟩

/-- C2 fails as stated: on `"[["` the scan ends with the pending-open stack
`[1, 0]` (top first), whose earliest / bottom-of-stack entry is position 0,
yet the resolver reports position 1 — `loop_stk[-1]`, the top of the
stack — so the reported position is not the earliest unmatched `[`. -/
theorem c2_counterexample :
    scanStk ['[', '['] 0 [] = some [1, 0] ∧
    loopResolve ['[', '['] = .error (.unmatchedOpen 1) ∧
    loopResolve ['[', '['] ≠ .error (.unmatchedOpen 0) := by
  refine ⟨rfl, rfl, ?_⟩
  decide

/-- C2 amended: when the scan ends with a non-empty stack of pending
open-loop positions, the resolver fails with a SyntaxError-kind condition
reporting the position of the **latest (top-of-stack, most recently
opened)** still-unmatched `[`. -/
theorem c2_unmatched_open_reports_top (code : List Char) (t : Nat) (r : List Nat)
    (h : scanStk code 0 [] = some (t :: r)) :
    loopResolve code = .error (.unmatchedOpen t) := by
  obtain ⟨m', hm'⟩ := loopScanAux_append [] code 0 [] (t :: r) [] h
  rw [loopResolve]
  conv_lhs => rw [← List.append_nil code]
  rw [hm']
  simp [loopScanAux]

/-- Witness for the amended C2 at the concrete program `"[["`. -/
theorem c2_unmatched_open_reports_top_witness :
    scanStk ['[', '[', '+'] 0 [] = some [1, 0] ∧
    loopResolve ['[', '[', '+'] = .error (.unmatchedOpen 1) :=
  ⟨rfl, c2_unmatched_open_reports_top ['[', '[', '+'] 1 [0] rfl⟩

/-- One interpreter step preserves the execution invariant: the pointer is
always reduced modulo the tape length, writes go through `List.set` (which
keeps the length), and written values are either 0 or reduced modulo
`CELL_SZ`. -/
theorem bfStep_good (code : List Char) (lm : List (Nat × Nat)) (inp : List Int)
    (s s' : BfState) (hs : GoodState s) (h : bfStep code lm inp s = .ok s') :
    GoodState s' := by
  obtain ⟨h0, h1, h2, h3⟩ := hs
  simp only [bfStep, pyOrdInt] at h
  repeat' split at h
  any_goals exact Except.noConfusion h
  all_goals cases h
  all_goals refine ⟨?_, ?_, ?_, ?_⟩
  all_goals first
    | assumption
    | exact Int.emod_nonneg _ (by norm_num [TAPE_SZ])
    | exact Int.emod_lt_of_pos _ (by norm_num [TAPE_SZ])
    | (simp only [List.length_set]; assumption)
    | (intro x hx
       rcases List.mem_or_eq_of_mem_set hx with hmem | hval
       · exact h3 x hmem
       · subst hval
         constructor
         · first
             | exact Int.emod_nonneg _ (by norm_num [CELL_SZ])
             | norm_num
         · first
             | exact Int.emod_lt_of_pos _ (by norm_num [CELL_SZ])
             | norm_num [CELL_SZ])

/-- Any number of interpreter steps preserves the execution invariant. -/
theorem bfExec_good (code : List Char) (lm : List (Nat × Nat)) (inp : List Int) :
    ∀ (n : Nat) (s s' : BfState), GoodState s → bfExec code lm inp n s = .ok s' →
    GoodState s' := by
  intro n
  induction n with
  | zero => intro s s' hs h; cases h; exact hs
  | succ n ih =>
    intro s s' hs h
    simp only [bfExec] at h
    split at h
    · cases hstep : bfStep code lm inp s with
      | error e => rw [hstep] at h; exact Except.noConfusion h
      | ok s1 => rw [hstep] at h; exact ih s1 s' (bfStep_good code lm inp s s1 hs hstep) h
    · cases h; exact hs

/-- The initial state satisfies the execution invariant. -/
theorem initState_good : GoodState initState := by
  refine ⟨le_refl 0, by norm_num [TAPE_SZ, initState], by simp [initState], ?_⟩
  intro x hx
  have hx0 := List.eq_of_mem_replicate hx
  subst hx0
  norm_num [CELL_SZ]

/-- C10: throughout every (static-mode) execution, the data pointer stays in
`[0, 30000)` — it starts at 0 and is only ever changed modulo the tape
length — so every tape access is in bounds, and the tape always has exactly
30,000 cells (in particular the tape returned at termination does). -/
theorem c10_pointer_safety (code : List Char) (lm : List (Nat × Nat))
    (inp : List Int) (n : Nat) (s : BfState)
    (h : bfExec code lm inp n initState = .ok s) :
    0 ≤ s.p ∧ s.p < 30000 ∧ s.p.toNat < s.tape.length ∧ s.tape.length = 30000 := by
  obtain ⟨h0, h1, h2, -⟩ := bfExec_good code lm inp n initState s initState_good h
  have h1' : s.p < 30000 := by norm_num [TAPE_SZ] at h1; exact h1
  have h2' : s.tape.length = 30000 := by norm_num [TAPE_SZ] at h2; exact h2
  refine ⟨h0, h1', ?_, h2'⟩
  rw [h2']
  omega

/-- Witness for C10 at a concrete execution (0 steps of `"+"`). -/
theorem c10_pointer_safety_witness :
    bfExec ['+'] [] [] 0 initState = .ok initState ∧
    (0 ≤ initState.p ∧ initState.p < 30000 ∧
     initState.p.toNat < initState.tape.length ∧ initState.tape.length = 30000) :=
  ⟨rfl, c10_pointer_safety ['+'] [] [] 0 initState rfl⟩

/-- C5: cell arithmetic is modulo 255, not 256 — `+` on a cell valued 254
yields 0, `-` on a cell valued 0 yields 254, and in any program built only
from `+` and `-` every cell stays in `[0, 255)` at every point of the
execution, so no cell ever holds 255. -/
theorem c5_cell_modulus_255 :
    (∀ (code : List Char) (lm : List (Nat × Nat)) (inp : List Int) (s : BfState),
      code.getD s.i ' ' = '+' → cellAt s = 254 →
      bfStep code lm inp s =
        .ok { s with tape := s.tape.set s.p.toNat 0, i := s.i + 1 }) ∧
    (∀ (code : List Char) (lm : List (Nat × Nat)) (inp : List Int) (s : BfState),
      code.getD s.i ' ' = '-' → cellAt s = 0 →
      bfStep code lm inp s =
        .ok { s with tape := s.tape.set s.p.toNat 254, i := s.i + 1 }) ∧
    (∀ (code : List Char) (lm : List (Nat × Nat)) (inp : List Int),
      onlyPM code → ∀ (n : Nat) (s : BfState),
      bfExec code lm inp n initState = .ok s →
      ∀ x ∈ s.tape, 0 ≤ x ∧ x < 255) := by
  refine ⟨?_, ?_, ?_⟩
  · intro code lm inp s hc hcell
    simp only [bfStep, hc]
    rw [if_neg (by decide), if_neg (by decide), if_pos trivial, hcell]
    norm_num [CELL_SZ]
  · intro code lm inp s hc hcell
    simp only [bfStep, hc]
    rw [if_neg (by decide), if_neg (by decide), if_neg (by decide), if_pos trivial, hcell]
    norm_num [CELL_SZ]
  · intro code lm inp _ n s h x hx
    obtain ⟨-, -, -, h3⟩ := bfExec_good code lm inp n initState s initState_good h
    obtain ⟨hl, hr⟩ := h3 x hx
    refine ⟨hl, ?_⟩
    norm_num [CELL_SZ] at hr
    exact hr

/-- A halted state (instruction pointer past the end) is unchanged by any
amount of further fuel. -/
theorem bfExec_halted (code : List Char) (lm : List (Nat × Nat)) (inp : List Int)
    (s : BfState) (h : ¬ s.i < code.length) :
    ∀ n, bfExec code lm inp n s = .ok s
  | 0 => rfl
  | n + 1 => by simp [bfExec, h]

/-- Unfold one fueled step when the loop guard holds. -/
theorem bfExec_step (code : List Char) (lm : List (Nat × Nat)) (inp : List Int)
    (n : Nat) (s : BfState) (h : s.i < code.length) :
    bfExec code lm inp (n + 1) s =
      match bfStep code lm inp s with
      | .error e => .error e
      | .ok s1 => bfExec code lm inp n s1 := by
  simp only [bfExec, if_pos h]

/-- Fuel composes: running `a + b` steps is running `a` steps and then `b`
steps from where that left off. -/
theorem bfExec_add (code : List Char) (lm : List (Nat × Nat)) (inp : List Int)
    (b : Nat) : ∀ (a : Nat) (s : BfState),
    bfExec code lm inp (a + b) s =
      match bfExec code lm inp a s with
      | .error e => .error e
      | .ok s1 => bfExec code lm inp b s1 := by
  intro a
  induction a with
  | zero =>
    intro s
    rw [Nat.zero_add]
    rfl
  | succ a ih =>
    intro s
    rw [Nat.succ_add]
    by_cases hg : s.i < code.length
    · simp only [bfExec, if_pos hg]
      cases hstep : bfStep code lm inp s with
      | error e => rfl
      | ok s1 => exact ih s1
    · simp only [bfExec, if_neg hg]
      rw [bfExec_halted code lm inp s hg b]

/-- Entering `[-]` with a nonzero current cell falls through the `[` into the
loop body. -/
theorem bfStep_S4 (v : Nat) (hv : (v : Int) ≠ 0) :
    bfStep code4 lm4 [] (S4 v) = .ok (T4 v) := by
  have h1 : bfStep code4 lm4 [] (S4 v) =
      .ok { S4 v with i := (if (v : Int) = 0 then lmLookup lm4 0 else 0) + 1 } := rfl
  rw [h1, if_neg hv]
  rfl

/-- The `-` at position 1 of `[-]` decrements the current cell modulo
`CELL_SZ` (the two `List.set`s at cell 0 collapse). -/
theorem bfStep_T4 (w : Nat) :
    bfStep code4 lm4 [] (T4 w) =
      .ok { initState with
            tape := initState.tape.set 0 (((w : Int) - 1) % CELL_SZ), i := 2 } := by
  have h1 : bfStep code4 lm4 [] (T4 w) =
      .ok { initState with
            tape := (initState.tape.set 0 (w : Int)).set 0 (((w : Int) - 1) % CELL_SZ),
            i := 2 } := rfl
  rw [h1, List.set_set]

/-- The `]` at position 2 of `[-]` with a zero cell exits the loop. -/
theorem bfStep_close_zero :
    bfStep code4 lm4 [] { initState with tape := initState.tape.set 0 0, i := 2 } =
      .ok H4 := rfl

/-- The `]` at position 2 of `[-]` with a nonzero cell jumps back to the `[`
at position 0, and the uniform `+1` advance lands on the `-` at position 1. -/
theorem bfStep_close_ne (a : Int) (ha : a ≠ 0) :
    bfStep code4 lm4 [] { initState with tape := initState.tape.set 0 a, i := 2 } =
      .ok { initState with tape := initState.tape.set 0 a, i := 1 } := by
  have h1 : bfStep code4 lm4 []
      { initState with tape := initState.tape.set 0 a, i := 2 } =
      .ok { initState with
            tape := initState.tape.set 0 a,
            i := (if a ≠ 0 then lmLookup lm4 2 else 2) + 1 } := rfl
  rw [h1, if_pos ha]
  rfl

/-- One full `[-]` loop iteration from cell value `w + 1 ≥ 2` comes back to
the top of the body with cell value `w`. -/
theorem bfExec2_loop (w : Nat) (hw1 : 1 ≤ w) (hw2 : w + 1 ≤ 254) :
    bfExec code4 lm4 [] 2 (T4 (w + 1)) = .ok (T4 w) := by
  have h255 : ((w : Nat) : Int) < CELL_SZ := by norm_num [CELL_SZ]; omega
  have hdec : (((w + 1 : Nat) : Int) - 1) % CELL_SZ = ((w : Nat) : Int) := by
    have h : (((w + 1 : Nat) : Int) - 1) = ((w : Nat) : Int) := by push_cast; ring
    rw [h, Int.emod_eq_of_lt (Int.natCast_nonneg w) h255]
  rw [bfExec_step code4 lm4 [] 1 (T4 (w + 1)) (by show (1 : Nat) < 3; decide),
    bfStep_T4 (w + 1), hdec]
  show bfExec code4 lm4 [] 1
      { initState with tape := initState.tape.set 0 ((w : Nat) : Int), i := 2 } = .ok (T4 w)
  rw [bfExec_step code4 lm4 [] 0
      { initState with tape := initState.tape.set 0 ((w : Nat) : Int), i := 2 }
      (by show (2 : Nat) < 3; decide),
    bfStep_close_ne ((w : Nat) : Int) (by omega)]
  rfl

/-- The last `[-]` iteration (cell value 1) clears the cell and exits. -/
theorem bfExec2_last : bfExec code4 lm4 [] 2 (T4 1) = .ok H4 := by
  have hdec : (((1 : Nat) : Int) - 1) % CELL_SZ = 0 := by decide
  rw [bfExec_step code4 lm4 [] 1 (T4 1) (by decide), bfStep_T4 1, hdec]
  show bfExec code4 lm4 [] 1
      { initState with tape := initState.tape.set 0 0, i := 2 } = .ok H4
  rw [bfExec_step code4 lm4 [] 0
      { initState with tape := initState.tape.set 0 0, i := 2 }
      (by show (2 : Nat) < 3; decide),
    bfStep_close_zero]
  rfl

/-- From the top of the `[-]` body with any cell value `1 ≤ w ≤ 254`, the
loop terminates in the halted, cell-cleared state. -/
theorem c4_loop : ∀ (w : Nat), 1 ≤ w → w ≤ 254 →
    ∃ n, bfExec code4 lm4 [] n (T4 w) = .ok H4 := by
  intro w
  induction w with
  | zero => omega
  | succ w ih =>
    intro h1 h2
    rcases Nat.eq_zero_or_pos w with hw | hw
    · subst hw
      exact ⟨2, bfExec2_last⟩
    · obtain ⟨n, hn⟩ := ih hw (by omega)
      refine ⟨2 + n, ?_⟩
      rw [bfExec_add code4 lm4 [] n 2 (T4 (w + 1)), bfExec2_loop w hw h2]
      exact hn

/-- `[` on a zero cell jumps straight past the matching `]`: `[-]` on cell
value 0 halts in one step. -/
theorem c4_zero : bfExec code4 lm4 [] 1 (S4 0) = .ok H4 := rfl

/-- C4: executing `[-]` from any current-cell value `v ≤ 254` terminates —
the instruction pointer reaches the sequence length after finitely many
steps — with the current cell cleared to 0. -/
theorem c4_clear_loop_terminates (v : Nat) (hv : v ≤ 254) :
    loopResolve code4 = .ok lm4 ∧
    ∃ (n : Nat) (s : BfState), bfExec code4 lm4 [] n (S4 v) = .ok s ∧
      s.i = code4.length ∧ s.tape.getD 0 0 = 0 := by
  refine ⟨rfl, ?_⟩
  rcases Nat.eq_zero_or_pos v with h0 | h1
  · subst h0
    exact ⟨1, H4, c4_zero, rfl, rfl⟩
  · obtain ⟨n, hn⟩ := c4_loop v h1 hv
    refine ⟨n + 1, H4, ?_, rfl, rfl⟩
    rw [bfExec_step code4 lm4 [] n (S4 v) (by show (0 : Nat) < 3; decide),
      bfStep_S4 v (by omega)]
    exact hn

/-- Witness for C4 at the concrete start value 3. -/
theorem c4_clear_loop_terminates_witness :
    3 ≤ 254 ∧
    (loopResolve code4 = .ok lm4 ∧
     ∃ (n : Nat) (s : BfState), bfExec code4 lm4 [] n (S4 3) = .ok s ∧
       s.i = code4.length ∧ s.tape.getD 0 0 = 0) :=
  ⟨by omega, c4_clear_loop_terminates 3 (by omega)⟩

/-- Witness for C5: `+` on 254 in `"+"`, `-` on 0 in `"-"`, and the
cell-range invariant after 0 steps of `"+"`. -/
theorem c5_cell_modulus_255_witness :
    (['+'].getD 0 ' ' = '+') ∧ cellAt st254 = 254 ∧
    bfStep ['+'] [] [] st254 =
      .ok { st254 with tape := st254.tape.set 0 0, i := 1 } ∧
    (['-'].getD 0 ' ' = '-') ∧ cellAt initState = 0 ∧
    bfStep ['-'] [] [] initState =
      .ok { initState with tape := initState.tape.set 0 254, i := 1 } ∧
    onlyPM ['+'] ∧
    (∀ x ∈ initState.tape, 0 ≤ x ∧ x < 255) :=
  ⟨rfl, rfl, c5_cell_modulus_255.1 ['+'] [] [] st254 rfl rfl,
   rfl, rfl, c5_cell_modulus_255.2.1 ['-'] [] [] initState rfl rfl,
   by decide, c5_cell_modulus_255.2.2 ['+'] [] [] (by decide) 0 initState rfl⟩

/-- Dict lookup skips a binding with a different key. -/
theorem lookup_cons_ne (x k v : Nat) (l : List (Nat × Nat)) (h : x ≠ k) :
    ((k, v) :: l).lookup x = l.lookup x := by
  rw [List.lookup_cons, show (x == k) = false from beq_eq_false_iff_ne.mpr h]

/-- The scan invariant holds and is propagated to the end of the scan when
the reference stack scan reports balance: the resolver succeeds and the
final map satisfies the invariant at the full length with an empty stack. -/
theorem loopScanAux_balanced (code : List Char) :
    ∀ (rest : List Char) (i : Nat) (stk : List Nat) (m : List (Nat × Nat)),
    code.drop i = rest → ScanInv code i stk m →
    scanStk rest i stk = some [] →
    ∃ m', loopScanAux rest i stk m = .ok m' ∧
      ScanInv code (i + rest.length) [] m' := by
  intro rest
  induction rest with
  | nil =>
    intro i stk m hdrop hinv hscan
    simp only [scanStk, Option.some.injEq] at hscan
    subst hscan
    exact ⟨m, rfl, by simpa using hinv⟩
  | cons c rest ih =>
    intro i stk m hdrop hinv hscan
    have hci : code[i]? = some c := by
      have h0 := List.getElem?_drop code i 0
      rw [hdrop] at h0
      simpa using h0.symm
    have hdrop2 : code.drop (i + 1) = rest := by
      have h0 := List.drop_drop 1 i code
      rw [hdrop] at h0
      simpa using h0.symm
    simp only [scanStk] at hscan
    by_cases h1 : c = '['
    · rw [if_pos h1] at hscan
      have hinv' : ScanInv code (i + 1) (i :: stk) m := by
        obtain ⟨stk_lt, stk_nodup, keys_lt, disj, keys_nodup, cover, pair_symm, lookup_ok⟩ := hinv
        refine ⟨?_, ?_, ?_, ?_, keys_nodup, ?_, pair_symm, lookup_ok⟩
        · intro p hp
          rcases List.mem_cons.mp hp with rfl | hp'
          · omega
          · exact Nat.lt_succ_of_lt (stk_lt p hp')
        · rw [List.nodup_cons]
          exact ⟨fun hmem => Nat.lt_irrefl i (stk_lt i hmem), stk_nodup⟩
        · intro x hx
          exact Nat.lt_succ_of_lt (keys_lt x hx)
        · intro p hp
          rcases List.mem_cons.mp hp with rfl | hp'
          · exact fun hk => Nat.lt_irrefl p (keys_lt p hk)
          · exact disj p hp'
        · intro x hx hbx hxs
          have hxi : x ≠ i := by
            intro h
            exact hxs (h ▸ List.mem_cons_self x stk)
          exact cover x (by omega) hbx (fun hh => hxs (List.mem_cons_of_mem i hh))
      obtain ⟨m', hok, hfin⟩ := ih (i + 1) (i :: stk) m hdrop2 hinv' hscan
      refine ⟨m', ?_, ?_⟩
      · simp only [loopScanAux, if_pos h1]
        exact hok
      · rw [List.length_cons, show i + (rest.length + 1) = i + 1 + rest.length from by omega]
        exact hfin
    · rw [if_neg h1] at hscan
      by_cases h2 : c = ']'
      · rw [if_pos h2] at hscan
        cases stk with
        | nil => simp at hscan
        | cons a stk2 =>
          have hinv' : ScanInv code (i + 1) stk2 ((i, a) :: (a, i) :: m) := by
            obtain ⟨stk_lt, stk_nodup, keys_lt, disj, keys_nodup, cover, pair_symm, lookup_ok⟩ := hinv
            have ha_lt : a < i := stk_lt a (List.mem_cons_self a stk2)
            have ha_keys : a ∉ mKeys m := disj a (List.mem_cons_self a stk2)
            have hi_keys : i ∉ mKeys m := fun h => Nat.lt_irrefl i (keys_lt i h)
            have ha_stk2 : a ∉ stk2 := (List.nodup_cons.mp stk_nodup).1
            have hstk2_nodup : stk2.Nodup := (List.nodup_cons.mp stk_nodup).2
            have hkeys_eq : mKeys ((i, a) :: (a, i) :: m) = i :: a :: mKeys m := rfl
            refine ⟨?_, hstk2_nodup, ?_, ?_, ?_, ?_, ?_, ?_⟩
            · intro p hp
              exact Nat.lt_succ_of_lt (stk_lt p (List.mem_cons_of_mem a hp))
            · intro x hx
              rw [hkeys_eq] at hx
              rcases List.mem_cons.mp hx with rfl | hx2
              · omega
              rcases List.mem_cons.mp hx2 with rfl | hx3
              · omega
              · exact Nat.lt_succ_of_lt (keys_lt x hx3)
            · intro p hp
              have hp_lt : p < i := stk_lt p (List.mem_cons_of_mem a hp)
              rw [hkeys_eq]
              intro hmem
              rcases List.mem_cons.mp hmem with rfl | hmem2
              · exact Nat.lt_irrefl p hp_lt
              rcases List.mem_cons.mp hmem2 with rfl | hmem3
              · exact ha_stk2 hp
              · exact disj p (List.mem_cons_of_mem a hp) hmem3
            · rw [hkeys_eq, List.nodup_cons, List.nodup_cons]
              refine ⟨?_, ha_keys, keys_nodup⟩
              intro hmem
              rcases List.mem_cons.mp hmem with heq | hmem2
              · omega
              · exact hi_keys hmem2
            · intro x hx hbx hxs2
              rw [hkeys_eq]
              by_cases hxi : x = i
              · subst hxi
                exact List.mem_cons_self x (a :: mKeys m)
              by_cases hxa : x = a
              · subst hxa
                exact List.mem_cons_of_mem i (List.mem_cons_self x (mKeys m))
              · have hxstk : x ∉ a :: stk2 := by
                  intro hmem
                  rcases List.mem_cons.mp hmem with heq | h3
                  · exact hxa heq
                  · exact hxs2 h3
                exact List.mem_cons_of_mem i
                  (List.mem_cons_of_mem a (cover x (by omega) hbx hxstk))
            · intro p q hpq
              rcases List.mem_cons.mp hpq with heq | hpq2
              · injection heq with hp hq
                subst hp; subst hq
                exact List.mem_cons_of_mem _ (List.mem_cons_self _ m)
              rcases List.mem_cons.mp hpq2 with heq | hpq3
              · injection heq with hp hq
                subst hp; subst hq
                exact List.mem_cons_self _ ((p, q) :: m)
              · exact List.mem_cons_of_mem _ (List.mem_cons_of_mem _ (pair_symm p q hpq3))
            · intro p q hpq
              rcases List.mem_cons.mp hpq with heq | hpq2
              · injection heq with hp hq
                subst hp; subst hq
                exact List.lookup_cons_self
              rcases List.mem_cons.mp hpq2 with heq | hpq3
              · injection heq with hp hq
                rw [hp, hq, lookup_cons_ne a i a ((a, i) :: m) (by omega)]
                exact List.lookup_cons_self
              · have hpk : p ∈ mKeys m := List.mem_map.mpr ⟨(p, q), hpq3, rfl⟩
                have hpi : p ≠ i := fun h => Nat.lt_irrefl i (h ▸ keys_lt p hpk)
                have hpa : p ≠ a := fun h => ha_keys (h ▸ hpk)
                rw [lookup_cons_ne p i a _ hpi, lookup_cons_ne p a i _ hpa]
                exact lookup_ok p q hpq3
          obtain ⟨m', hok, hfin⟩ := ih (i + 1) stk2 ((i, a) :: (a, i) :: m) hdrop2 hinv' hscan
          refine ⟨m', ?_, ?_⟩
          · simp only [loopScanAux, if_neg h1, if_pos h2]
            exact hok
          · rw [List.length_cons, show i + (rest.length + 1) = i + 1 + rest.length from by omega]
            exact hfin
      · rw [if_neg h2] at hscan
        have hinv' : ScanInv code (i + 1) stk m := by
          obtain ⟨stk_lt, stk_nodup, keys_lt, disj, keys_nodup, cover, pair_symm, lookup_ok⟩ := hinv
          refine ⟨?_, stk_nodup, ?_, disj, keys_nodup, ?_, pair_symm, lookup_ok⟩
          · intro p hp
            exact Nat.lt_succ_of_lt (stk_lt p hp)
          · intro x hx
            exact Nat.lt_succ_of_lt (keys_lt x hx)
          · intro x hx hbx hxs
            have hxi : x ≠ i := by
              intro h
              subst h
              rcases hbx with hb | hb
              · rw [hci] at hb
                exact h1 (Option.some.inj hb)
              · rw [hci] at hb
                exact h2 (Option.some.inj hb)
            exact cover x (by omega) hbx hxs
        obtain ⟨m', hok, hfin⟩ := ih (i + 1) stk m hdrop2 hinv' hscan
        refine ⟨m', ?_, ?_⟩
        · simp only [loopScanAux, if_neg h1, if_neg h2]
          exact hok
        · rw [List.length_cons, show i + (rest.length + 1) = i + 1 + rest.length from by omega]
          exact hfin

/-- C3: for every instruction sequence with balanced brackets, the Loop
Resolver succeeds and the Jump Map is an involution on bracket positions —
looking up any bracket position gives a position whose lookup gives the
original back — and every bracket position has exactly one entry (key) in
the map. -/
theorem c3_balanced_involution (code : List Char) (hbal : Balanced code) :
    ∃ m, loopResolve code = .ok m ∧
      ∀ x, bracketAt code x →
        (∃ y, m.lookup x = some y ∧ m.lookup y = some x) ∧
        (mKeys m).count x = 1 := by
  have hinv0 : ScanInv code 0 [] [] := by
    refine ⟨?_, List.nodup_nil, ?_, ?_, List.nodup_nil, ?_, ?_, ?_⟩
    · intro p hp
      exact absurd hp (List.not_mem_nil p)
    · intro x hx
      exact absurd hx (List.not_mem_nil x)
    · intro p hp
      exact absurd hp (List.not_mem_nil p)
    · intro x hx
      exact absurd hx (Nat.not_lt_zero x)
    · intro a b hab
      exact absurd hab (List.not_mem_nil (a, b))
    · intro a b hab
      exact absurd hab (List.not_mem_nil (a, b))
  obtain ⟨m, hok, hfin⟩ := loopScanAux_balanced code code 0 [] [] rfl hinv0 hbal
  refine ⟨m, hok, ?_⟩
  intro x hbx
  have hxlen : x < code.length := by
    rcases hbx with h | h
    · exact (List.getElem?_eq_some_iff.mp h).1
    · exact (List.getElem?_eq_some_iff.mp h).1
  have hxk : x ∈ mKeys m := hfin.cover x (by omega) hbx (List.not_mem_nil x)
  obtain ⟨⟨p, q⟩, hpq, hfst⟩ := List.mem_map.mp hxk
  have hp : p = x := hfst
  subst hp
  exact ⟨⟨q, hfin.lookup_ok p q hpq, hfin.lookup_ok q p (hfin.pair_symm p q hpq)⟩,
    List.count_eq_one_of_mem hfin.keys_nodup hxk⟩

/-- Witness for C3 at the concrete balanced program `"[]"`. -/
theorem c3_balanced_involution_witness :
    Balanced ['[', ']'] ∧
    ∃ m, loopResolve ['[', ']'] = .ok m ∧
      ∀ x, bracketAt ['[', ']'] x →
        (∃ y, m.lookup x = some y ∧ m.lookup y = some x) ∧
        (mKeys m).count x = 1 :=
  ⟨by decide, c3_balanced_involution ['[', ']'] (by decide)⟩

end BF
